import Mathlib

set_option maxRecDepth 100000

attribute [local semireducible] Rat.mul Rat.inv Rat.add Rat.sub Rat.ofScientific

/-!
Verification of the attendance-conversion core (`attendance_calculator.py`).

The embedding models instants as `Nat` seconds since the proleptic-Gregorian
instant 0001-01-01 00:00:00, mirroring Python `datetime` field arithmetic
(`replace`, `timedelta`, lexicographic comparison) through `%`-arithmetic on
day (86400 s) and hour (3600 s) boundaries. Parsed instants always have
microsecond 0, so second-resolution is exact. Character classes are modelled
over ASCII (the inputs of interest are ASCII digits and separators).
-/

namespace AttendanceConv

/- Instants are `Nat` seconds since the reference midnight; `Nat` is used
directly (rather than an alias) so that linear-arithmetic automation sees
through it. -/

/-- Leap-year rule of the proleptic Gregorian calendar used by `datetime`. -/
def isLeap (y : Nat) : Bool :=
  (y % 4 == 0 && y % 100 != 0) || (y % 400 == 0)

def daysInMonth (y m : Nat) : Nat :=
  if m = 2 then (if isLeap y then 29 else 28)
  else if m = 4 ∨ m = 6 ∨ m = 9 ∨ m = 11 then 30
  else 31

def daysBeforeMonth (y : Nat) : Nat → Nat
  | 0 => 0
  | 1 => 0
  | m + 2 => daysBeforeMonth y (m + 1) + daysInMonth y (m + 1)

def daysBeforeYear (y : Nat) : Nat :=
  365 * (y - 1) + (y - 1) / 4 - (y - 1) / 100 + (y - 1) / 400

/-- Seconds since 0001-01-01 00:00:00 of the given calendar datetime. -/
def mkInstant (y mo d h mi s : Nat) : Nat :=
  (daysBeforeYear y + daysBeforeMonth y mo + (d - 1)) * 86400 + h * 3600 + mi * 60 + s

/- ### Character-level helpers for `_parse_datetime` -/

def isDig (c : Char) : Bool := '0' ≤ c && c ≤ '9'

def dval (c : Char) : Nat := c.toNat - 48

/-- ASCII whitespace as recognised by Python `\s` and `str.strip`. -/
def isPyWs (c : Char) : Bool :=
  c = ' ' || c = '\t' || c = '\n' || c = '\r' || c = '\x0b' || c = '\x0c'

def pyStrip (cs : List Char) : List Char :=
  ((cs.dropWhile isPyWs).reverse.dropWhile isPyWs).reverse

def isUpperAN (c : Char) : Bool :=
  ('A' ≤ c && c ≤ 'Z') || ('0' ≤ c && c ≤ '9')

/-- Require at least one character satisfying `p`, then drop the maximal run. -/
def dropRun1 (p : Char → Bool) : List Char → Option (List Char)
  | c :: rest => if p c then some (rest.dropWhile p) else none
  | [] => none

/-- One match of the device-code pattern from the source,
whitespace then uppercase alphanumerics then whitespace, maximal runs
(the character classes are disjoint, so greedy maximal runs are exact). -/
def matchMachine (cs : List Char) : Option (List Char) :=
  (dropRun1 isPyWs cs).bind fun cs1 => (dropRun1 isUpperAN cs1).bind (dropRun1 isPyWs)

/-- Fuelled scan for `re.sub` over the device-code pattern, replacing each
leftmost non-overlapping match by a single space. Every step consumes at
least one character, so `cs.length` fuel suffices. -/
def subMachineF : Nat → List Char → List Char
  | 0, cs => cs
  | fuel + 1, cs =>
    match cs with
    | [] => []
    | c :: rest =>
      match matchMachine (c :: rest) with
      | some rest2 => ' ' :: subMachineF fuel rest2
      | none => c :: subMachineF fuel rest

def subMachine (cs : List Char) : List Char := subMachineF cs.length cs

/- ### `strptime` format machinery

CPython's `_strptime` builds a regex per directive; the numeric directives
are ordered alternations. Each candidate function returns the alternatives
in the regex's order, with the remaining input. -/

structure DTParts where
  y : Nat := 1900
  mo : Nat := 1
  d : Nat := 1
  h : Nat := 0
  mi : Nat := 0
  s : Nat := 0
deriving DecidableEq

inductive FTok where
  | lit : Char → FTok
  | fY | fm | fd | fH | fM | fS
deriving DecidableEq

/-- `%Y` is exactly four digits. -/
def candY : List Char → List (Nat × List Char)
  | a :: b :: c :: d :: rest =>
    if isDig a && isDig b && isDig c && isDig d then
      [(((dval a * 10 + dval b) * 10 + dval c) * 10 + dval d, rest)]
    else []
  | _ => []

/-- `%m` matches `1[0-2]|0[1-9]|[1-9]`. -/
def candm : List Char → List (Nat × List Char)
  | a :: b :: rest =>
    (if a = '1' && ('0' ≤ b && b ≤ '2') then [(10 + dval b, rest)] else []) ++
    (if a = '0' && ('1' ≤ b && b ≤ '9') then [(dval b, rest)] else []) ++
    (if '1' ≤ a && a ≤ '9' then [(dval a, b :: rest)] else [])
  | [a] => if '1' ≤ a && a ≤ '9' then [(dval a, [])] else []
  | [] => []

/-- `%d` matches `3[01]|[12]\d|0[1-9]|[1-9]`. -/
def candd : List Char → List (Nat × List Char)
  | a :: b :: rest =>
    (if a = '3' && ('0' ≤ b && b ≤ '1') then [(30 + dval b, rest)] else []) ++
    (if ('1' ≤ a && a ≤ '2') && isDig b then [(dval a * 10 + dval b, rest)] else []) ++
    (if a = '0' && ('1' ≤ b && b ≤ '9') then [(dval b, rest)] else []) ++
    (if '1' ≤ a && a ≤ '9' then [(dval a, b :: rest)] else [])
  | [a] => if '1' ≤ a && a ≤ '9' then [(dval a, [])] else []
  | [] => []

/-- `%H` matches `2[0-3]|[0-1]\d|\d`. -/
def candH : List Char → List (Nat × List Char)
  | a :: b :: rest =>
    (if a = '2' && ('0' ≤ b && b ≤ '3') then [(20 + dval b, rest)] else []) ++
    (if ('0' ≤ a && a ≤ '1') && isDig b then [(dval a * 10 + dval b, rest)] else []) ++
    (if isDig a then [(dval a, b :: rest)] else [])
  | [a] => if isDig a then [(dval a, [])] else []
  | [] => []

/-- `%M` matches `[0-5]\d|\d`. -/
def candMi : List Char → List (Nat × List Char)
  | a :: b :: rest =>
    (if ('0' ≤ a && a ≤ '5') && isDig b then [(dval a * 10 + dval b, rest)] else []) ++
    (if isDig a then [(dval a, b :: rest)] else [])
  | [a] => if isDig a then [(dval a, [])] else []
  | [] => []

/-- `%S` matches `6[0-1]|[0-5]\d|\d`. -/
def candS : List Char → List (Nat × List Char)
  | a :: b :: rest =>
    (if a = '6' && ('0' ≤ b && b ≤ '1') then [(60 + dval b, rest)] else []) ++
    (if ('0' ≤ a && a ≤ '5') && isDig b then [(dval a * 10 + dval b, rest)] else []) ++
    (if isDig a then [(dval a, b :: rest)] else [])
  | [a] => if isDig a then [(dval a, [])] else []
  | [] => []

/-- First candidate on which the continuation succeeds (regex backtracking
across a directive's alternatives). -/
def firstSome (cands : List (Nat × List Char)) (k : Nat → List Char → Option DTParts) :
    Option DTParts :=
  match cands with
  | [] => none
  | (n, rest) :: more =>
    match k n rest with
    | some r => some r
    | none => firstSome more k

/-- Run a format against the input; the whole input must be consumed
("unconverted data remains" is a failure). Fuel is one per token. -/
def runFmtF : Nat → List FTok → List Char → DTParts → Option DTParts
  | 0, _, _, _ => none
  | _ + 1, [], cs, p => if cs.isEmpty then some p else none
  | fuel + 1, FTok.lit c :: ts, cs, p =>
    match cs with
    | a :: rest => if a = c then runFmtF fuel ts rest p else none
    | [] => none
  | fuel + 1, FTok.fY :: ts, cs, p =>
    firstSome (candY cs) (fun n rest => runFmtF fuel ts rest { p with y := n })
  | fuel + 1, FTok.fm :: ts, cs, p =>
    firstSome (candm cs) (fun n rest => runFmtF fuel ts rest { p with mo := n })
  | fuel + 1, FTok.fd :: ts, cs, p =>
    firstSome (candd cs) (fun n rest => runFmtF fuel ts rest { p with d := n })
  | fuel + 1, FTok.fH :: ts, cs, p =>
    firstSome (candH cs) (fun n rest => runFmtF fuel ts rest { p with h := n })
  | fuel + 1, FTok.fM :: ts, cs, p =>
    firstSome (candMi cs) (fun n rest => runFmtF fuel ts rest { p with mi := n })
  | fuel + 1, FTok.fS :: ts, cs, p =>
    firstSome (candS cs) (fun n rest => runFmtF fuel ts rest { p with s := n })

def runFmt (ts : List FTok) (cs : List Char) : Option DTParts :=
  runFmtF (ts.length + 1) ts cs {}

def fmtSlashFull : List FTok :=
  [FTok.fY, FTok.lit '/', FTok.fm, FTok.lit '/', FTok.fd, FTok.lit ' ',
   FTok.fH, FTok.lit ':', FTok.fM]

def fmtDashFull : List FTok :=
  [FTok.fY, FTok.lit '-', FTok.fm, FTok.lit '-', FTok.fd, FTok.lit ' ',
   FTok.fH, FTok.lit ':', FTok.fM]

def fmtSlashFullS : List FTok := fmtSlashFull ++ [FTok.lit ':', FTok.fS]

def fmtDashFullS : List FTok := fmtDashFull ++ [FTok.lit ':', FTok.fS]

def fmtSlashShort : List FTok :=
  [FTok.fm, FTok.lit '/', FTok.fd, FTok.lit ' ', FTok.fH, FTok.lit ':', FTok.fM]

def fmtDashShort : List FTok :=
  [FTok.fm, FTok.lit '-', FTok.fd, FTok.lit ' ', FTok.fH, FTok.lit ':', FTok.fM]

/-- The six formats tried by `_parse_datetime`, in source order. -/
def pyFormats : List (List FTok) :=
  [fmtSlashFull, fmtDashFull, fmtSlashFullS, fmtDashFullS, fmtSlashShort, fmtDashShort]

/-- `datetime(...)` construction validates what the regex alone does not:
year ≥ 1, day within the month, second ≤ 59. Failures raise `ValueError`,
which the source catches like a pattern mismatch. -/
def validParts (p : DTParts) : Bool :=
  1 ≤ p.y && p.d ≤ daysInMonth p.y p.mo && p.s ≤ 59

def partsToInstant (p : DTParts) : Nat := mkInstant p.y p.mo p.d p.h p.mi p.s

def tryFormat (f : List FTok) (cs : List Char) : Option Nat :=
  (runFmt f cs).bind fun p => if validParts p then some (partsToInstant p) else none

/-- `AttendanceRecord._parse_datetime`: strip, remove the device-code token,
then try the six formats in order; first success wins. -/
def parseDatetime (s : String) : Option Nat :=
  let cs := subMachine (pyStrip s.data)
  pyFormats.findSome? (fun f => tryFormat f cs)

/- ### `_round_time_to_hour` -/

/-- `DailyAttendance._round_time_to_hour`: `st` is the instant's day rebased to
the configured start-of-day; at/after it the instant is floored to the hour,
before it, a nonzero minute or second ceils to the next hour. -/
def roundTimeToHour (t : Nat) (sh sm : Nat) : Nat :=
  let st := t - t % 86400 + sh * 3600 + sm * 60
  if st ≤ t then t - t % 3600
  else if t % 3600 / 60 > 0 ∨ t % 60 > 0 then t - t % 3600 + 3600
  else t

/- ### `AttendanceRecord` and sorting -/

structure AttendanceRecord where
  name : String
  empId : String
  dtStr : String
  checkType : String
  datetime : Option Nat
deriving DecidableEq

/-- The `AttendanceRecord.__init__` constructor: the instant is parsed from
the datetime text. -/
def mkAttendanceRecord (name empId dtStr checkType : String) : AttendanceRecord :=
  { name := name, empId := empId, dtStr := dtStr, checkType := checkType,
    datetime := parseDatetime dtStr }

/-- Stand-in for `datetime.max` as a sort key: strictly above every instant a
parse can produce (parsed years have four digits, hence are < 10000). -/
def maxDT : Nat := mkInstant 10000 1 1 0 0 0

def sortKey (r : AttendanceRecord) : Nat := r.datetime.getD maxDT

def recLe (a b : AttendanceRecord) : Prop := sortKey a ≤ sortKey b

instance : DecidableRel recLe := fun a b => Nat.decLe (sortKey a) (sortKey b)

instance : IsTotal AttendanceRecord recLe := ⟨fun a b => Nat.le_total (sortKey a) (sortKey b)⟩

instance : IsTrans AttendanceRecord recLe := ⟨fun _ _ _ => Nat.le_trans⟩

/- ### `_estimate_break` -/

def gapMinutes (t1 t2 : Nat) : ℚ := ((t2 : ℚ) - (t1 : ℚ)) / 60

/-- The adjacent-pair scan of `_estimate_break`: first pair with a gap in
[30, 120] minutes whose first punch's time-of-day lies in [10:30, 14:30];
the recorded minutes are the truncated gap with a floor of 60. -/
def findBreak : List Nat → Option (Nat × Nat × Nat)
  | t1 :: t2 :: rest =>
    if 30 ≤ gapMinutes t1 t2 ∧ gapMinutes t1 t2 ≤ 120 ∧
        37800 ≤ t1 % 86400 ∧ t1 % 86400 ≤ 52200 then
      some (t1, t2,
        if (Rat.floor (gapMinutes t1 t2)).toNat < 60 then 60
        else (Rat.floor (gapMinutes t1 t2)).toNat)
    else findBreak (t2 :: rest)
  | _ => none

/-- `_estimate_break` on the valid (all-parsed) punch list: fewer than two
punches returns immediately; otherwise the scan, then the 4-hour fallback. -/
def estimateBreak (vals : List Nat) (ci co : Nat) :
    Option Nat × Option Nat × Nat :=
  if vals.length < 2 then (none, none, 0)
  else
    match findBreak vals with
    | some (a, b, m) => (some a, some b, m)
    | none =>
      let bs := ci + 14400
      if bs < co then (some bs, some (bs + 3600), 60) else (none, none, 0)

/- ### `DailyAttendance._calculate` and `_calculate_hours` -/

structure DailyResult where
  checkIn : Option Nat
  checkOut : Option Nat
  breakStart : Option Nat
  breakEnd : Option Nat
  breakMinutes : Nat
  actualHours : ℚ
  overtimeHours : ℚ
  remarks : String
deriving DecidableEq

def noRecordsResult : DailyResult :=
  { checkIn := none, checkOut := none, breakStart := none, breakEnd := none,
    breakMinutes := 0, actualHours := 0, overtimeHours := 0, remarks := "無有效打卡記錄" }

/-- The `__init__` sort: ascending by instant, `None` sorting as `datetime.max`,
stable for ties (Python `sorted` is stable, as is insertion sort). -/
def sortedRecs (records : List AttendanceRecord) : List AttendanceRecord :=
  List.insertionSort recLe records

/-- Instants of the valid records, in sorted order (filtering after sorting,
as in `_calculate`). -/
def validInstants (records : List AttendanceRecord) : List Nat :=
  (sortedRecs records).filterMap (fun r => r.datetime)

/-- `_calculate_hours` arithmetic: minutes of span, minus break minutes, over 60. -/
def hoursFrom (ci co : Nat) (bm : Nat) : ℚ :=
  (((co : ℚ) - (ci : ℚ)) / 60 - (bm : ℚ)) / 60

/-- `DailyAttendance._calculate`: check-in is the earliest valid instant,
check-out the latest, then break estimation and the hours arithmetic. The
start-time parameters are stored by the class but unused here; rounding
happens only in `to_dict`. -/
def dailyAttendance (records : List AttendanceRecord) (startHour startMinute : Nat) :
    DailyResult :=
  match validInstants records with
  | [] => noRecordsResult
  | v :: vs =>
    let co := (v :: vs).getLast (List.cons_ne_nil v vs)
    let eb := estimateBreak (v :: vs) v co
    let ah := hoursFrom v co eb.2.2
    { checkIn := some v, checkOut := some co,
      breakStart := eb.1, breakEnd := eb.2.1, breakMinutes := eb.2.2,
      actualHours := ah,
      overtimeHours := if ah > 8 then ah - 8 else 0,
      remarks := "" }

/- ### `to_dict` -/

/-- Python `round` is round-half-to-even. -/
def roundHalfEven (q : ℚ) : Int :=
  if q - Rat.floor q < 1 / 2 then Rat.floor q
  else if (1 : ℚ) / 2 < q - Rat.floor q then Rat.floor q + 1
  else if Rat.floor q % 2 = 0 then Rat.floor q else Rat.floor q + 1

def round2 (q : ℚ) : ℚ := (roundHalfEven (q * 100) : ℚ) / 100

structure OutRow where
  dateOut : String
  nameOut : String
  empIdOut : String
  checkInRounded : Option Nat
  checkOutOut : Option Nat
  breakStartOut : Option Nat
  breakEndOut : Option Nat
  breakMinutesOut : Nat
  actualHoursOut : ℚ
  overtimeHoursOut : ℚ
  remarksOut : String
deriving DecidableEq

/-- `DailyAttendance.to_dict`: the check-in is rounded for display, the
check-out is passed through unrounded, hours are rounded to two decimals.
(`strftime` string formatting of the instants is display-only and omitted.) -/
def toDict (d : DailyResult) (sh sm : Nat) (name empId dateStr : String) : OutRow :=
  { dateOut := dateStr, nameOut := name, empIdOut := empId,
    checkInRounded := d.checkIn.map (fun t => roundTimeToHour t sh sm),
    checkOutOut := d.checkOut,
    breakStartOut := d.breakStart, breakEndOut := d.breakEnd,
    breakMinutesOut := d.breakMinutes,
    actualHoursOut := round2 d.actualHours,
    overtimeHoursOut := round2 d.overtimeHours,
    remarksOut := d.remarks }

/- ### `AttendanceProcessor._find_column` and column resolution -/

/-- Python `keyword in col` substring containment. -/
def containsStr (needle hay : String) : Bool :=
  hay.data.tails.any (fun t => needle.data.isPrefixOf t)

def colMatches (kws : List String) (c : String) : Bool :=
  kws.any (fun k => containsStr k c)

/-- `_find_column`: first column (in file order) containing any keyword. -/
def findColumn (cols kws : List String) : Option String :=
  cols.find? (colMatches kws)

def nameKeywords : List String := ["姓名", "名字", "name"]

def empIdKeywords : List String := ["考勤", "號碼", "id", "員工", "工號"]

def datetimeKeywords : List String := ["日期時間", "時間", "datetime", "date"]

def checkKeywords : List String := ["簽", "check", "status"]

def fieldKeywordLists : List (List String) :=
  [nameKeywords, empIdKeywords, datetimeKeywords, checkKeywords]

/-- The column-resolution prefix of `process_csv`: each of the four canonical
fields is resolved in turn, a missing field aborting the invocation. -/
def resolveColumns (cols : List String) :
    Except String (String × String × String × String) :=
  match findColumn cols nameKeywords with
  | none => Except.error "缺少姓名欄位"
  | some nameCol =>
    match findColumn cols empIdKeywords with
    | none => Except.error "缺少考勤號碼欄位"
    | some empCol =>
      match findColumn cols datetimeKeywords with
      | none => Except.error "缺少日期時間欄位"
      | some dtCol =>
        match findColumn cols checkKeywords with
        | none => Except.error "缺少簽到/退欄位"
        | some ckCol => Except.ok (nameCol, empCol, dtCol, ckCol)

/- ### Date extraction, `str.extract(r'(\d+/\d+/\d+)')` -/

/-- Match the pattern digits-slash-digits-slash-digits at the head of the
input, greedy digit runs (exact here, digits and slash being disjoint).
Returns the matched text. -/
def matchSlashDateAt (cs : List Char) : Option (List Char) :=
  let d1 := cs.takeWhile isDig
  if d1.isEmpty then none
  else
    match cs.dropWhile isDig with
    | '/' :: cs2 =>
      let d2 := cs2.takeWhile isDig
      if d2.isEmpty then none
      else
        match cs2.dropWhile isDig with
        | '/' :: cs3 =>
          let d3 := cs3.takeWhile isDig
          if d3.isEmpty then none else some (d1 ++ '/' :: d2 ++ '/' :: d3)
        | _ => none
    | _ => none

/-- Leftmost match, scanning positions left to right as `re` does. -/
def extractSlashDateAux : List Char → Option (List Char)
  | [] => none
  | c :: cs =>
    match matchSlashDateAt (c :: cs) with
    | some m => some m
    | none => extractSlashDateAux cs

def extractSlashDate (s : String) : Option String :=
  (extractSlashDateAux s.data).map (fun cs => String.mk cs)

/-- `strptime(date_str, "%Y/%m/%d")` on the extracted date text. -/
def fmtYMD : List FTok := [FTok.fY, FTok.lit '/', FTok.fm, FTok.lit '/', FTok.fd]

def parseDateYMD (s : String) : Option DTParts :=
  (runFmt fmtYMD s.data).bind fun p => if validParts p then some p else none

/-- `strftime("%Y/%m/%d")` of a date, zero-padded. -/
def digitChar (n : Nat) : Char := Char.ofNat (48 + n)

def pad2 (n : Nat) : String := String.mk [digitChar (n / 10 % 10), digitChar (n % 10)]

def pad4 (n : Nat) : String :=
  String.mk [digitChar (n / 1000 % 10), digitChar (n / 100 % 10),
             digitChar (n / 10 % 10), digitChar (n % 10)]

def fmtDateStr (p : DTParts) : String := pad4 p.y ++ "/" ++ pad2 p.mo ++ "/" ++ pad2 p.d

/- ### Grouping pipeline of `process_csv` -/

/-- One CSV data row after the rename mapping: the four canonical fields.
Reading/decoding the CSV text itself is done by external collaborators. -/
structure RawRow where
  name : String
  empId : String
  dtText : String
  checkType : String
deriving DecidableEq

/-- `employee_start_times`: employee id (or the reserved `None` sentinel key)
to (hour, minute), as an association list with distinct keys. -/
abbrev StartConfig := List (Option String × Nat × Nat)

/-- The lookup `self.employee_start_times.get(str(emp_id), (8, 0))`. -/
def lookupStart (cfg : StartConfig) (empId : String) : Nat × Nat :=
  ((cfg.find? (fun p => decide (p.1 = some empId))).map (fun p => p.2)).getD (8, 0)

def keyOf (r : RawRow) : String × String := (r.name, r.empId)

def rowDate (r : RawRow) : Option String := extractSlashDate r.dtText

def strLe (a b : String) : Prop := a ≤ b

instance : DecidableRel strLe := fun a b => inferInstanceAs (Decidable (a ≤ b))

instance : IsTotal String strLe := ⟨fun a b => le_total a b⟩

instance : IsTrans String strLe := ⟨fun _ _ _ => le_trans⟩

instance : IsAntisymm String strLe := ⟨fun _ _ => le_antisymm⟩

/-- Lexicographic order on pairs of strings; `pandas.groupby` sorts its group
keys ascending, and `sort_values(["日期", "姓名"])` sorts rows likewise. -/
def keyLe (a b : String × String) : Prop := a.1 < b.1 ∨ (a.1 = b.1 ∧ a.2 ≤ b.2)

instance : DecidableRel keyLe := fun a b =>
  inferInstanceAs (Decidable (a.1 < b.1 ∨ (a.1 = b.1 ∧ a.2 ≤ b.2)))

instance : IsTotal (String × String) keyLe :=
  ⟨fun a b => by
    rcases lt_trichotomy a.1 b.1 with h | h | h
    · exact Or.inl (Or.inl h)
    · rcases le_total a.2 b.2 with h2 | h2
      · exact Or.inl (Or.inr ⟨h, h2⟩)
      · exact Or.inr (Or.inr ⟨h.symm, h2⟩)
    · exact Or.inr (Or.inl h)⟩

instance : IsTrans (String × String) keyLe :=
  ⟨fun a b c hab hbc => by
    rcases hab with h1 | ⟨h1, h1'⟩
    · rcases hbc with h2 | ⟨h2, _⟩
      · exact Or.inl (lt_trans h1 h2)
      · exact Or.inl (h2 ▸ h1)
    · rcases hbc with h2 | ⟨h2, h2'⟩
      · exact Or.inl (h1 ▸ h2)
      · exact Or.inr ⟨h1.trans h2, le_trans h1' h2'⟩⟩

instance : IsAntisymm (String × String) keyLe :=
  ⟨fun a b hab hba => by
    rcases hab with h1 | ⟨h1, h1'⟩
    · rcases hba with h2 | ⟨h2, _⟩
      · exact absurd (lt_trans h1 h2) (lt_irrefl a.1)
      · exact absurd h1 (h2 ▸ lt_irrefl b.1)
    · rcases hba with h2 | ⟨h2, h2'⟩
      · exact absurd h2 (h1 ▸ lt_irrefl a.1)
      · exact Prod.ext h1 (le_antisymm h1' h2')⟩

/-- The date keys of one (name, employee) group: extracted date strings,
`NaN` (= extraction failure) dropped, deduplicated, sorted ascending as
`pandas.groupby` presents them. -/
def groupDates (g : List RawRow) : List String :=
  List.insertionSort strLe (g.filterMap rowDate).dedup

/-- Processing of one (name, employee, date) subgroup: skip if the date text
does not parse as `%Y/%m/%d`; build records (keeping parse successes); skip
if none; then one daily record via the configured start time. -/
def processDateGroup (cfg : StartConfig) (name emp dstr : String) (g : List RawRow) :
    List OutRow :=
  match parseDateYMD dstr with
  | none => []
  | some dp =>
    let dg := g.filter (fun r => decide (rowDate r = some dstr))
    let recs := (dg.map (fun r => mkAttendanceRecord name emp r.dtText r.checkType)).filter
        (fun rc => rc.datetime.isSome)
    if recs.isEmpty then []
    else
      let st := lookupStart cfg emp
      [toDict (dailyAttendance recs st.1 st.2) st.1 st.2 name emp (fmtDateStr dp)]

def processGroup (cfg : StartConfig) (name emp : String) (g : List RawRow) : List OutRow :=
  (groupDates g).flatMap (fun dstr => processDateGroup cfg name emp dstr g)

/-- The (name, employee-id) group keys, sorted as `pandas.groupby` yields them. -/
def groupKeys (rows : List RawRow) : List (String × String) :=
  List.insertionSort keyLe (rows.map keyOf).dedup

def outLe (a b : OutRow) : Prop := keyLe (a.dateOut, a.nameOut) (b.dateOut, b.nameOut)

instance : DecidableRel outLe := fun a b =>
  inferInstanceAs (Decidable (keyLe (a.dateOut, a.nameOut) (b.dateOut, b.nameOut)))

/-- The `results` list accumulated by `process_csv`: every (name, employee)
group key, each processed over the rows carrying that key. -/
def processResults (rows : List RawRow) (cfg : StartConfig) : List OutRow :=
  (groupKeys rows).flatMap
    (fun k => processGroup cfg k.1 k.2 (rows.filter (fun r => decide (keyOf r = k))))

/-- The row-processing part of `process_csv`: group, aggregate, abort on an
empty result, sort by (date, name). -/
def processCsvRows (rows : List RawRow) (cfg : StartConfig) : Except String (List OutRow) :=
  if (processResults rows cfg).isEmpty then Except.error "沒有可處理的記錄"
  else Except.ok (List.insertionSort outLe (processResults rows cfg))

/-- `process_csv` after CSV decoding: header names are stripped, the four
canonical columns resolved (fatal on failure), then rows are processed. -/
def processCsv (headers : List String) (rows : List RawRow) (cfg : StartConfig) :
    Except String (List OutRow) :=
  match resolveColumns (headers.map (fun h => String.mk (pyStrip h.data))) with
  | Except.error e => Except.error e
  | Except.ok _ => processCsvRows rows cfg

/- ### Concrete inputs used by witnesses and counterexamples -/

/-- Scenario A of the spec: punches 08:30, 12:00, 13:00, 17:30. -/
def scenarioArecs : List AttendanceRecord :=
  [mkAttendanceRecord "王小明" "001" "2024/01/15 08:30" "簽到",
   mkAttendanceRecord "王小明" "001" "2024/01/15 12:00" "簽退",
   mkAttendanceRecord "王小明" "001" "2024/01/15 13:00" "簽到",
   mkAttendanceRecord "王小明" "001" "2024/01/15 17:30" "簽退"]

/-- The spec's §4.5 formula taken at its word: check-out minus the §4.4-rounded
check-in, in minutes, minus break minutes, over 60. Stated from the spec text,
for comparison against the source's `hoursFrom` over the raw check-in. -/
def specActualHours (ci co : Nat) (sh sm : Nat) (bm : Nat) : ℚ :=
  (((co : ℚ) - ((roundTimeToHour ci sh sm : Nat) : ℚ)) / 60 - (bm : ℚ)) / 60

/-- A short shift (08:00 and 12:30) whose synthesized fallback break ends
after check-out. -/
def shortShiftRecs : List AttendanceRecord :=
  [mkAttendanceRecord "李四" "002" "2024/01/15 08:00" "簽到",
   mkAttendanceRecord "李四" "002" "2024/01/15 12:30" "簽退"]

/-- Punches 11:00 and 11:45: a detected break pair with a raw gap below 60. -/
def shortBreakRecs : List AttendanceRecord :=
  [mkAttendanceRecord "陳品璇" "101" "2024/01/15 11:00" "簽到",
   mkAttendanceRecord "陳品璇" "101" "2024/01/15 11:45" "簽退"]

/-- Headers in which two headers match the name keyword list. -/
def dupNameCols : List String := ["姓名", "名字", "考勤", "時間", "簽"]

def dupNameColsSwapped : List String := ["名字", "姓名", "考勤", "時間", "簽"]

/-- Synonym headers, each matching exactly one canonical field. -/
def synonymCols : List String := ["簽到狀態", "日期時間", "員工工號", "姓名"]

def synonymColsPerm : List String := ["姓名", "員工工號", "日期時間", "簽到狀態"]

def w9headers : List String := ["姓名", "考勤號碼", "日期時間", "簽到/退"]

def w9rows : List RawRow :=
  [{ name := "王小明", empId := "001", dtText := "2024/01/15 08:30", checkType := "簽到" },
   { name := "王小明", empId := "001", dtText := "2024/01/15 17:30", checkType := "簽退" }]

def w9cfg : StartConfig := []

/-- The table the pipeline returns on `w9rows`. -/
def w9out : List OutRow :=
  match processCsv w9headers w9rows w9cfg with
  | Except.ok l => l
  | Except.error _ => []

/-- A row in the accepted dash format: it parses, yet carries no
slash-shaped date substring. -/
def dashRow : RawRow :=
  { name := "王小明", empId := "001", dtText := "2024-01-15 08:30", checkType := "簽到" }

/- ### Helper lemmas -/

theorem dailyAttendance_eq_of_cons {records : List AttendanceRecord} {sh sm : Nat}
    {v : Nat} {vs : List Nat} (hv : validInstants records = v :: vs) :
    dailyAttendance records sh sm =
      { checkIn := some v,
        checkOut := some ((v :: vs).getLast (List.cons_ne_nil v vs)),
        breakStart := (estimateBreak (v :: vs) v ((v :: vs).getLast (List.cons_ne_nil v vs))).1,
        breakEnd := (estimateBreak (v :: vs) v ((v :: vs).getLast (List.cons_ne_nil v vs))).2.1,
        breakMinutes := (estimateBreak (v :: vs) v ((v :: vs).getLast (List.cons_ne_nil v vs))).2.2,
        actualHours := hoursFrom v ((v :: vs).getLast (List.cons_ne_nil v vs))
          (estimateBreak (v :: vs) v ((v :: vs).getLast (List.cons_ne_nil v vs))).2.2,
        overtimeHours :=
          if hoursFrom v ((v :: vs).getLast (List.cons_ne_nil v vs))
              (estimateBreak (v :: vs) v ((v :: vs).getLast (List.cons_ne_nil v vs))).2.2 > 8 then
            hoursFrom v ((v :: vs).getLast (List.cons_ne_nil v vs))
              (estimateBreak (v :: vs) v ((v :: vs).getLast (List.cons_ne_nil v vs))).2.2 - 8
          else 0,
        remarks := "" } := by
  unfold dailyAttendance
  rw [hv]

theorem dailyAttendance_eq_of_nil {records : List AttendanceRecord} {sh sm : Nat}
    (hv : validInstants records = []) :
    dailyAttendance records sh sm = noRecordsResult := by
  unfold dailyAttendance
  rw [hv]

theorem findBreak_spec : ∀ (ts : List Nat) (t1 t2 : Nat) (m : Nat),
    findBreak ts = some (t1, t2, m) →
    t1 ∈ ts ∧ t2 ∈ ts ∧ 30 ≤ gapMinutes t1 t2 ∧
    m = (if (Rat.floor (gapMinutes t1 t2)).toNat < 60 then 60
         else (Rat.floor (gapMinutes t1 t2)).toNat) ∧ 60 ≤ m := by
  intro ts
  induction ts with
  | nil => intro t1 t2 m h; simp [findBreak] at h
  | cons a tail ih =>
    intro t1 t2 m h
    cases tail with
    | nil => simp [findBreak] at h
    | cons b rest =>
      rw [findBreak] at h
      by_cases hc : 30 ≤ gapMinutes a b ∧ gapMinutes a b ≤ 120 ∧
          37800 ≤ a % 86400 ∧ a % 86400 ≤ 52200
      · rw [if_pos hc] at h
        have h1 : a = t1 ∧ b = t2 ∧
            (if (Rat.floor (gapMinutes a b)).toNat < 60 then 60
             else (Rat.floor (gapMinutes a b)).toNat) = m := by
          have := Option.some.inj h
          exact ⟨congrArg Prod.fst this, congrArg Prod.fst (congrArg Prod.snd this),
            congrArg Prod.snd (congrArg Prod.snd this)⟩

        rcases h1 with ⟨rfl, rfl, hm⟩
        refine ⟨List.mem_cons_self _ _, List.mem_cons_of_mem _ (List.mem_cons_self _ _),
          hc.1, hm.symm, ?_⟩
        rw [← hm]
        split
        · exact le_refl 60
        · omega
      · rw [if_neg hc] at h
        obtain ⟨h1, h2, h3, h4, h5⟩ := ih t1 t2 m h
        exact ⟨List.mem_cons_of_mem _ h1, List.mem_cons_of_mem _ h2, h3, h4, h5⟩

theorem gapMinutes_le {t1 t2 : Nat} (h : 30 ≤ gapMinutes t1 t2) : t1 ≤ t2 := by
  unfold gapMinutes at h
  rw [le_div_iff₀ (by norm_num : (0 : ℚ) < 60)] at h
  have : (t1 : ℚ) ≤ (t2 : ℚ) := by linarith
  exact_mod_cast this

theorem pairwise_filterMap_datetime : ∀ {l : List AttendanceRecord},
    List.Pairwise recLe l →
    List.Pairwise (fun a b : Nat => a ≤ b) (l.filterMap (fun r => r.datetime)) := by
  intro l
  induction l with
  | nil => intro _; simp
  | cons a l ih =>
    intro h
    obtain ⟨ha, hl⟩ := List.pairwise_cons.mp h
    cases hda : a.datetime with
    | none => simpa [List.filterMap_cons, hda] using ih hl
    | some t =>
      rw [List.filterMap_cons, hda]
      refine List.pairwise_cons.mpr ⟨?_, ih hl⟩
      intro u hu
      obtain ⟨b, hb, hdb⟩ := List.mem_filterMap.mp hu
      have hle := ha b hb
      unfold recLe sortKey at hle
      rw [hda, hdb] at hle
      simpa using hle

theorem validInstants_pairwise (records : List AttendanceRecord) :
    List.Pairwise (fun a b : Nat => a ≤ b) (validInstants records) :=
  pairwise_filterMap_datetime (List.sorted_insertionSort recLe records)

theorem validInstants_perm (records : List AttendanceRecord) :
    (validInstants records).Perm (records.filterMap (fun r => r.datetime)) := by
  unfold validInstants sortedRecs
  exact (List.perm_insertionSort recLe records).filterMap (fun r => r.datetime)

theorem sorted_head_le {v : Nat} {vs : List Nat}
    (h : List.Pairwise (fun a b : Nat => a ≤ b) (v :: vs)) :
    ∀ t ∈ v :: vs, v ≤ t := by
  intro t ht
  rcases List.mem_cons.mp ht with rfl | ht
  · exact le_refl t
  · exact (List.pairwise_cons.mp h).1 t ht

theorem sorted_le_getLast : ∀ {l : List Nat},
    List.Pairwise (fun a b : Nat => a ≤ b) l →
    ∀ (hne : l ≠ []) (t : Nat), t ∈ l → t ≤ l.getLast hne := by
  intro l
  induction l with
  | nil => intro _ hne; exact absurd rfl hne
  | cons v vs ih =>
    intro h hne t ht
    cases vs with
    | nil =>
      have : t = v := by simpa using ht
      subst this
      simp [List.getLast]
    | cons w ws =>
      have hlast : (v :: w :: ws).getLast hne = (w :: ws).getLast (List.cons_ne_nil w ws) :=
        List.getLast_cons (List.cons_ne_nil w ws)
      rcases List.mem_cons.mp ht with rfl | ht
      · have hmem : (w :: ws).getLast (List.cons_ne_nil w ws) ∈ w :: ws :=
          List.getLast_mem (List.cons_ne_nil w ws)
        have := (List.pairwise_cons.mp h).1 _ hmem
        rw [hlast]; exact this
      · rw [hlast]
        exact ih (List.pairwise_cons.mp h).2 (List.cons_ne_nil w ws) t ht

theorem estimateBreak_cases (vals : List Nat) (ci co : Nat) :
    estimateBreak vals ci co = (none, none, 0) ∨
    (∃ a b m, findBreak vals = some (a, b, m) ∧
      estimateBreak vals ci co = (some a, some b, m)) ∨
    (findBreak vals = none ∧ ci + 14400 < co ∧
      estimateBreak vals ci co = (some (ci + 14400), some (ci + 14400 + 3600), 60)) := by
  unfold estimateBreak
  by_cases hlen : vals.length < 2
  · rw [if_pos hlen]; exact Or.inl rfl
  · rw [if_neg hlen]
    cases hfb : findBreak vals with
    | some abm =>
      obtain ⟨a, b, m⟩ := abm
      exact Or.inr (Or.inl ⟨a, b, m, rfl, rfl⟩)
    | none =>
      by_cases hbs : ci + 14400 < co
      · rw [if_pos hbs]
        exact Or.inr (Or.inr ⟨rfl, hbs, rfl⟩)
      · rw [if_neg hbs]; exact Or.inl rfl

theorem flatMap_congr {α β : Type} {l : List α} {f g : α → List β}
    (h : ∀ a ∈ l, f a = g a) : l.flatMap f = l.flatMap g := by
  induction l with
  | nil => rfl
  | cons a l ih =>
    rw [List.flatMap_cons, List.flatMap_cons, h a (List.mem_cons_self a l),
      ih (fun b hb => h b (List.mem_cons_of_mem a hb))]

theorem filter_middle_true {α : Type} (p : α → Bool) {pre post : List α} {row : α}
    (hp : p row = true) :
    (pre ++ row :: post).filter p = pre.filter p ++ row :: post.filter p := by
  simp [List.filter_append, List.filter_cons, hp]

theorem filter_middle_false {α : Type} (p : α → Bool) {pre post : List α} {row : α}
    (hp : p row = false) :
    (pre ++ row :: post).filter p = pre.filter p ++ post.filter p := by
  simp [List.filter_append, List.filter_cons, hp]

theorem find?_perm_unique {α : Type} {p : α → Bool} {l l' : List α} (hp : l.Perm l')
    (huniq : ∀ a ∈ l, ∀ b ∈ l, p a = true → p b = true → a = b) :
    l.find? p = l'.find? p := by
  cases h1 : l.find? p with
  | none =>
    cases h2 : l'.find? p with
    | none => rfl
    | some b =>
      have hb := List.find?_some h2
      have hbm : b ∈ l := hp.mem_iff.mpr (List.mem_of_find?_eq_some h2)
      have := List.find?_eq_none.mp h1 b hbm
      simp [hb] at this
  | some a =>
    have ha := List.find?_some h1
    have ham : a ∈ l := List.mem_of_find?_eq_some h1
    cases h2 : l'.find? p with
    | none =>
      have := List.find?_eq_none.mp h2 a (hp.mem_iff.mp ham)
      simp [ha] at this
    | some b =>
      have hb := List.find?_some h2
      have hbm : b ∈ l := hp.mem_iff.mpr (List.mem_of_find?_eq_some h2)
      rw [huniq a ham b hbm ha hb]

theorem insertionSort_eq_of_perm {l l' : List (String × String)} (h : l.Perm l') :
    List.insertionSort keyLe l = List.insertionSort keyLe l' :=
  List.eq_of_perm_of_sorted
    ((List.perm_insertionSort keyLe l).trans (h.trans (List.perm_insertionSort keyLe l').symm))
    (List.sorted_insertionSort keyLe l) (List.sorted_insertionSort keyLe l')

theorem processGroup_drop (cfg : StartConfig) (n e : String) (pre post : List RawRow)
    (row : RawRow) (hnone : rowDate row = none) :
    processGroup cfg n e (pre ++ row :: post) = processGroup cfg n e (pre ++ post) := by
  unfold processGroup groupDates
  have hfm : (pre ++ row :: post).filterMap rowDate = (pre ++ post).filterMap rowDate := by
    simp [List.filterMap_append, List.filterMap_cons, hnone]
  rw [hfm]
  refine flatMap_congr ?_
  intro dstr _
  unfold processDateGroup
  have hfl : (pre ++ row :: post).filter (fun r => decide (rowDate r = some dstr)) =
      (pre ++ post).filter (fun r => decide (rowDate r = some dstr)) := by
    have hp : decide (rowDate row = some dstr) = false :=
      decide_eq_false (by simp [hnone])
    rw [filter_middle_false (fun r => decide (rowDate r = some dstr)) hp, List.filter_append]
  rw [hfl]

/- ### Claim theorems -/

/-- C1, counterexample: on the spec's own Scenario A (punches 08:30, 12:00,
13:00, 17:30, start 08:00) the code computes `actual_hours = 8` from the raw
check-in 08:30, while the claimed formula over the §4.4-rounded check-in
(08:00) would give 8.5; the claim is false of the code. -/
theorem C1_counterexample :
    (dailyAttendance scenarioArecs 8 0).checkIn = some (mkInstant 2024 1 15 8 30 0) ∧
    (dailyAttendance scenarioArecs 8 0).checkOut = some (mkInstant 2024 1 15 17 30 0) ∧
    (dailyAttendance scenarioArecs 8 0).breakMinutes = 60 ∧
    (dailyAttendance scenarioArecs 8 0).actualHours = 8 ∧
    specActualHours (mkInstant 2024 1 15 8 30 0) (mkInstant 2024 1 15 17 30 0) 8 0 60 =
      17 / 2 ∧
    (8 : ℚ) ≠ 17 / 2 := by
  refine ⟨by decide, by decide, by decide, by decide, by decide, by decide⟩

/-- C1, amended: for every daily record with both instants present,
`actual_hours` equals (check-out minus the RAW check-in in minutes, minus
break minutes) over 60; the §4.4 rounding is applied to the check-in only in
`to_dict`, for display. -/
theorem C1_amended (records : List AttendanceRecord) (sh sm : Nat) (ci co : Nat)
    (hci : (dailyAttendance records sh sm).checkIn = some ci)
    (hco : (dailyAttendance records sh sm).checkOut = some co) :
    (dailyAttendance records sh sm).actualHours =
      (((co : ℚ) - (ci : ℚ)) / 60 - ((dailyAttendance records sh sm).breakMinutes : ℚ)) / 60 ∧
    ∀ name emp dateStr,
      (toDict (dailyAttendance records sh sm) sh sm name emp dateStr).checkInRounded =
        some (roundTimeToHour ci sh sm) := by
  cases hv : validInstants records with
  | nil =>
    rw [dailyAttendance_eq_of_nil hv] at hci
    exact absurd hci (by simp [noRecordsResult])
  | cons v vs =>
    rw [dailyAttendance_eq_of_cons hv] at hci hco ⊢
    obtain rfl := Option.some.inj hci
    obtain rfl := Option.some.inj hco
    exact ⟨rfl, fun name emp dateStr => rfl⟩

/-- C1, witness of the amended claim at Scenario A. -/
theorem C1_amended_witness :
    (dailyAttendance scenarioArecs 8 0).actualHours =
      ((((mkInstant 2024 1 15 17 30 0 : Nat) : ℚ) - ((mkInstant 2024 1 15 8 30 0 : Nat) : ℚ)) /
          60 - ((dailyAttendance scenarioArecs 8 0).breakMinutes : ℚ)) / 60 ∧
    ∀ name emp dateStr,
      (toDict (dailyAttendance scenarioArecs 8 0) 8 0 name emp dateStr).checkInRounded =
        some (roundTimeToHour (mkInstant 2024 1 15 8 30 0) 8 0) :=
  C1_amended scenarioArecs 8 0 (mkInstant 2024 1 15 8 30 0) (mkInstant 2024 1 15 17 30 0)
    (by decide) (by decide)

/-- C2: the lookup `employee_start_times.get(str(emp_id), (8, 0))` never
consults the reserved sentinel entry (key `None`): an id absent from the
mapping receives the hard-coded (8, 0) whatever the sentinel holds, and the
difference is material for rounding. -/
theorem C2_sentinel_ignored :
    lookupStart [(none, (9, 0))] "007" = (8, 0) ∧
    ((9, 0) : Nat × Nat) ≠ (8, 0) ∧
    roundTimeToHour (mkInstant 2024 1 15 8 30 0) 8 0 ≠
      roundTimeToHour (mkInstant 2024 1 15 8 30 0) 9 0 := by
  refine ⟨by decide, by decide, by decide⟩

/-- C3, counterexample: punches 08:00 and 12:30 synthesize the fallback break
12:00–13:00, whose end exceeds the 12:30 check-out; the claimed invariant
break-end ≤ check-out is false of the code. -/
theorem C3_counterexample :
    (dailyAttendance shortShiftRecs 8 0).checkOut = some (mkInstant 2024 1 15 12 30 0) ∧
    (dailyAttendance shortShiftRecs 8 0).breakEnd = some (mkInstant 2024 1 15 13 0 0) ∧
    mkInstant 2024 1 15 12 30 0 < mkInstant 2024 1 15 13 0 0 := by
  refine ⟨by decide, by decide, by decide⟩

/-- C3, amended: break-start always lies within [check-in-raw, check-out]
and precedes break-end, but break-end is only bounded by check-out + 60
minutes (strictly): a detected pair's end is ≤ check-out, while the
synthesized fallback's end may exceed check-out by up to an hour. -/
theorem C3_amended (records : List AttendanceRecord) (sh sm : Nat) (ci co bs be : Nat)
    (hci : (dailyAttendance records sh sm).checkIn = some ci)
    (hco : (dailyAttendance records sh sm).checkOut = some co)
    (hbs : (dailyAttendance records sh sm).breakStart = some bs)
    (hbe : (dailyAttendance records sh sm).breakEnd = some be) :
    ci ≤ bs ∧ bs ≤ co ∧ bs ≤ be ∧ be < co + 3600 := by
  cases hv : validInstants records with
  | nil =>
    rw [dailyAttendance_eq_of_nil hv] at hbs
    exact absurd hbs (by simp [noRecordsResult])
  | cons v vs =>
    have hpw := validInstants_pairwise records
    rw [hv] at hpw
    rw [dailyAttendance_eq_of_cons hv] at hci hco hbs hbe
    obtain rfl := Option.some.inj hci
    obtain rfl := Option.some.inj hco
    rcases estimateBreak_cases (v :: vs) v ((v :: vs).getLast (List.cons_ne_nil v vs)) with
      heb | ⟨a, b, m, hfb, heb⟩ | ⟨hfb, hbsl, heb⟩
    · rw [heb] at hbs
      exact absurd hbs (by simp)
    · rw [heb] at hbs hbe
      have hbseq : bs = a := (Option.some.inj hbs).symm
      have hbeeq : be = b := (Option.some.inj hbe).symm
      subst hbseq
      subst hbeeq
      obtain ⟨hm1, hm2, hgap, _, _⟩ := findBreak_spec _ _ _ _ hfb
      have hab := gapMinutes_le hgap
      have h1 : v ≤ bs := sorted_head_le hpw bs hm1
      have h2 : bs ≤ (v :: vs).getLast (List.cons_ne_nil v vs) :=
        sorted_le_getLast hpw (List.cons_ne_nil v vs) bs hm1
      have h3 : be ≤ (v :: vs).getLast (List.cons_ne_nil v vs) :=
        sorted_le_getLast hpw (List.cons_ne_nil v vs) be hm2
      exact ⟨h1, h2, hab, Nat.lt_of_le_of_lt h3 (Nat.lt_add_of_pos_right (by norm_num))⟩
    · rw [heb] at hbs hbe
      have hbseq : bs = v + 14400 := (Option.some.inj hbs).symm
      have hbeeq : be = v + 14400 + 3600 := (Option.some.inj hbe).symm
      subst hbseq
      subst hbeeq
      exact ⟨Nat.le_add_right v 14400, le_of_lt hbsl, Nat.le_add_right _ 3600,
        Nat.add_lt_add_right hbsl 3600⟩

/-- C3, witness of the amended claim at Scenario A's detected break. -/
theorem C3_amended_witness :
    mkInstant 2024 1 15 8 30 0 ≤ mkInstant 2024 1 15 12 0 0 ∧
    mkInstant 2024 1 15 12 0 0 ≤ mkInstant 2024 1 15 17 30 0 ∧
    mkInstant 2024 1 15 12 0 0 ≤ mkInstant 2024 1 15 13 0 0 ∧
    mkInstant 2024 1 15 13 0 0 < mkInstant 2024 1 15 17 30 0 + 3600 :=
  C3_amended scenarioArecs 8 0 (mkInstant 2024 1 15 8 30 0) (mkInstant 2024 1 15 17 30 0)
    (mkInstant 2024 1 15 12 0 0) (mkInstant 2024 1 15 13 0 0)
    (by decide) (by decide) (by decide) (by decide)

/-- C5, counterexample: a check-in of 07:00:30 with start 08:00 is before the
start and has minute 0 but second 30; the code ceils it to 08:00, refuting
"ceiled exactly when its minutes exceed zero / unchanged when on the hour". -/
theorem C5_counterexample :
    mkInstant 2024 1 15 7 0 30 % 3600 / 60 = 0 ∧
    mkInstant 2024 1 15 7 0 30 <
      mkInstant 2024 1 15 7 0 30 - mkInstant 2024 1 15 7 0 30 % 86400 + 8 * 3600 + 0 * 60 ∧
    roundTimeToHour (mkInstant 2024 1 15 7 0 30) 8 0 = mkInstant 2024 1 15 8 0 0 ∧
    mkInstant 2024 1 15 8 0 0 ≠ mkInstant 2024 1 15 7 0 30 := by
  refine ⟨by decide, by decide, by decide, by decide⟩

/-- C5, amended: at/after the configured start the check-in is floored to the
hour; before it, it is ceiled to the next hour exactly when minute or second
is nonzero (equivalently, when it is not exactly on the hour) and left
unchanged otherwise; `to_dict` passes the check-out through unrounded. -/
theorem C5_amended (t : Nat) (sh sm : Nat) :
    (t - t % 86400 + sh * 3600 + sm * 60 ≤ t → roundTimeToHour t sh sm = t - t % 3600) ∧
    (t < t - t % 86400 + sh * 3600 + sm * 60 →
      (t % 3600 ≠ 0 → roundTimeToHour t sh sm = t - t % 3600 + 3600) ∧
      (t % 3600 = 0 → roundTimeToHour t sh sm = t)) ∧
    ∀ (d : DailyResult) (name emp dateStr : String),
      (toDict d sh sm name emp dateStr).checkOutOut = d.checkOut := by
  unfold roundTimeToHour
  refine ⟨?_, ?_, fun d name emp dateStr => rfl⟩
  · intro h
    rw [if_pos h]
  · intro h
    constructor
    · intro hnz
      have hdv : t % 3600 % 60 = t % 60 := Nat.mod_mod_of_dvd t (by norm_num)
      have hd : t % 3600 / 60 > 0 ∨ t % 60 > 0 := by
        rcases Nat.eq_zero_or_pos (t % 60) with h60 | h60
        · left
          omega
        · right
          exact h60
      rw [if_neg (not_le.mpr h), if_pos hd]
    · intro hz
      have hdv : t % 3600 % 60 = t % 60 := Nat.mod_mod_of_dvd t (by norm_num)
      have hd : ¬(t % 3600 / 60 > 0 ∨ t % 60 > 0) := by
        rintro (hx | hx) <;> omega
      rw [if_neg (not_le.mpr h), if_neg hd]

/-- C5, witness of the amended claim at the spec's Scenario C: 10:40 with
start 11:00 is ceiled to 11:00. -/
theorem C5_amended_witness :
    roundTimeToHour (mkInstant 2024 1 15 10 40 0) 11 0 =
      mkInstant 2024 1 15 10 40 0 - mkInstant 2024 1 15 10 40 0 % 3600 + 3600 :=
  ((C5_amended (mkInstant 2024 1 15 10 40 0) 11 0).2.1 (by decide)).1 (by decide)

/-- C6: break-minutes of a daily record is 0 or at least 60; and whenever the
declared break window's truncated gap is below 60 minutes (as with a detected
pair of raw gap < 60), the recorded break length is exactly 60 while
break-end remains the second punch's instant. -/
theorem C6_break_minutes (records : List AttendanceRecord) (sh sm : Nat) :
    ((dailyAttendance records sh sm).breakMinutes = 0 ∨
      60 ≤ (dailyAttendance records sh sm).breakMinutes) ∧
    ∀ t1 t2 : Nat, (dailyAttendance records sh sm).breakStart = some t1 →
      (dailyAttendance records sh sm).breakEnd = some t2 →
      (Rat.floor (gapMinutes t1 t2)).toNat < 60 →
      (dailyAttendance records sh sm).breakMinutes = 60 := by
  cases hv : validInstants records with
  | nil =>
    rw [dailyAttendance_eq_of_nil hv]
    refine ⟨Or.inl rfl, ?_⟩
    intro t1 t2 h1
    exact absurd h1 (by simp [noRecordsResult])
  | cons v vs =>
    rw [dailyAttendance_eq_of_cons hv]
    rcases estimateBreak_cases (v :: vs) v ((v :: vs).getLast (List.cons_ne_nil v vs)) with
      heb | ⟨a, b, m, hfb, heb⟩ | ⟨hfb, hbsl, heb⟩
    · rw [heb]
      refine ⟨Or.inl rfl, ?_⟩
      intro t1 t2 h1
      exact absurd h1 (by simp)
    · rw [heb]
      obtain ⟨hm1, hm2, hgap, hm, h60⟩ := findBreak_spec _ _ _ _ hfb
      refine ⟨Or.inr h60, ?_⟩
      intro t1 t2 h1 h2 hfl
      obtain rfl := Option.some.inj h1
      obtain rfl := Option.some.inj h2
      rw [hm, if_pos hfl]
    · rw [heb]
      refine ⟨Or.inr (le_refl 60), ?_⟩
      intro t1 t2 h1 h2 hfl
      obtain rfl := Option.some.inj h1
      obtain rfl := Option.some.inj h2
      exfalso
      have hg : gapMinutes (v + 14400) (v + 14400 + 3600) = 60 := by
        unfold gapMinutes
        push_cast
        ring
      rw [hg] at hfl
      have h60eq : (Rat.floor (60 : ℚ)).toNat = 60 := by decide
      rw [h60eq] at hfl
      exact absurd hfl (lt_irrefl 60)

/-- C6, witness: punches 11:00 and 11:45 yield a detected pair of raw gap 45,
recorded as 60 break-minutes. -/
theorem C6_witness : (dailyAttendance shortBreakRecs 8 0).breakMinutes = 60 :=
  (C6_break_minutes shortBreakRecs 8 0).2 (mkInstant 2024 1 15 11 0 0)
    (mkInstant 2024 1 15 11 45 0) (by decide) (by decide) (by decide)

/-- C8: for every daily record, `overtime_hours = max(0, actual_hours − 8)`
exactly; in particular it is never negative and vanishes when
`actual_hours ≤ 8`. -/
theorem C8_overtime_eq_max (records : List AttendanceRecord) (sh sm : Nat) :
    (dailyAttendance records sh sm).overtimeHours =
      max 0 ((dailyAttendance records sh sm).actualHours - 8) := by
  cases hv : validInstants records with
  | nil =>
    rw [dailyAttendance_eq_of_nil hv]
    have h : (0 : ℚ) - 8 ≤ 0 := by norm_num
    simp [noRecordsResult, max_eq_left h]
  | cons v vs =>
    rw [dailyAttendance_eq_of_cons hv]
    dsimp only
    split_ifs with h
    · rw [max_eq_right (by linarith)]
    · rw [eq_comm, max_eq_left (by linarith)]

/-- C7: for every record list with at least one parsed instant, the emitted
check-in-raw is the minimum instant and the check-out the maximum instant
among the parsed punches (a member of the list bounding every member; ties
yield the same instant, and the underlying sorts are stable). -/
theorem C7_checkin_min_checkout_max (records : List AttendanceRecord) (sh sm : Nat)
    (h : records.filterMap (fun r => r.datetime) ≠ []) :
    ∃ ci co, (dailyAttendance records sh sm).checkIn = some ci ∧
      (dailyAttendance records sh sm).checkOut = some co ∧
      ci ∈ records.filterMap (fun r => r.datetime) ∧
      co ∈ records.filterMap (fun r => r.datetime) ∧
      ∀ t ∈ records.filterMap (fun r => r.datetime), ci ≤ t ∧ t ≤ co := by
  have hperm := validInstants_perm records
  cases hv : validInstants records with
  | nil =>
    rw [hv] at hperm
    exact absurd hperm.nil_eq.symm h
  | cons v vs =>
    rw [hv] at hperm
    have hpw := validInstants_pairwise records
    rw [hv] at hpw
    rw [dailyAttendance_eq_of_cons hv]
    refine ⟨v, (v :: vs).getLast (List.cons_ne_nil v vs), rfl, rfl, ?_, ?_, ?_⟩
    · exact hperm.mem_iff.mp (List.mem_cons_self v vs)
    · exact hperm.mem_iff.mp (List.getLast_mem (List.cons_ne_nil v vs))
    · intro t ht
      have ht2 : t ∈ v :: vs := hperm.mem_iff.mpr ht
      exact ⟨sorted_head_le hpw t ht2,
        sorted_le_getLast hpw (List.cons_ne_nil v vs) t ht2⟩

/-- C7, witness at Scenario A. -/
theorem C7_witness :
    scenarioArecs.filterMap (fun r => r.datetime) ≠ [] ∧
    ∃ ci co, (dailyAttendance scenarioArecs 8 0).checkIn = some ci ∧
      (dailyAttendance scenarioArecs 8 0).checkOut = some co ∧
      ci ∈ scenarioArecs.filterMap (fun r => r.datetime) ∧
      co ∈ scenarioArecs.filterMap (fun r => r.datetime) ∧
      ∀ t ∈ scenarioArecs.filterMap (fun r => r.datetime), ci ≤ t ∧ t ≤ co :=
  ⟨by decide, C7_checkin_min_checkout_max scenarioArecs 8 0 (by decide)⟩

/-- C4, counterexample: the headers 姓名 and 名字 both match the name keyword
list; swapping them is a permutation that preserves every keyword match yet
changes the resolved name column, so resolution is not order-independent. -/
theorem C4_counterexample :
    dupNameCols.Perm dupNameColsSwapped ∧
    resolveColumns dupNameCols = Except.ok ("姓名", "考勤", "時間", "簽") ∧
    resolveColumns dupNameColsSwapped = Except.ok ("名字", "考勤", "時間", "簽") ∧
    (("姓名", "考勤", "時間", "簽") : String × String × String × String) ≠
      ("名字", "考勤", "時間", "簽") := by
  refine ⟨by decide, rfl, rfl, by decide⟩

/-- C4, amended: column resolution is invariant under permutations of the
header sequence provided that, for each canonical field, any two headers
matching that field's keyword list are equal as strings (in particular when
at most one header matches each field); with several distinct matching
headers, first-in-file-order wins and the assignment can change. -/
theorem C4_amended (cols cols' : List String) (hperm : cols.Perm cols')
    (huniq : ∀ kws ∈ fieldKeywordLists, ∀ a ∈ cols, ∀ b ∈ cols,
      colMatches kws a = true → colMatches kws b = true → a = b) :
    resolveColumns cols = resolveColumns cols' := by
  have e1 : cols.find? (colMatches nameKeywords) = cols'.find? (colMatches nameKeywords) :=
    find?_perm_unique hperm (huniq nameKeywords (by simp [fieldKeywordLists]))
  have e2 : cols.find? (colMatches empIdKeywords) = cols'.find? (colMatches empIdKeywords) :=
    find?_perm_unique hperm (huniq empIdKeywords (by simp [fieldKeywordLists]))
  have e3 : cols.find? (colMatches datetimeKeywords) =
      cols'.find? (colMatches datetimeKeywords) :=
    find?_perm_unique hperm (huniq datetimeKeywords (by simp [fieldKeywordLists]))
  have e4 : cols.find? (colMatches checkKeywords) = cols'.find? (colMatches checkKeywords) :=
    find?_perm_unique hperm (huniq checkKeywords (by simp [fieldKeywordLists]))
  unfold resolveColumns findColumn
  rw [e1, e2, e3, e4]

/-- C4, witness of the amended claim: synonym headers, one per field,
resolve identically under a permutation. -/
theorem C4_amended_witness :
    synonymCols.Perm synonymColsPerm ∧
    (∀ kws ∈ fieldKeywordLists, ∀ a ∈ synonymCols, ∀ b ∈ synonymCols,
      colMatches kws a = true → colMatches kws b = true → a = b) ∧
    resolveColumns synonymCols = resolveColumns synonymColsPerm :=
  ⟨by decide, by decide, C4_amended synonymCols synonymColsPerm (by decide) (by decide)⟩

/-- C9: whenever `process_csv` returns a table (rather than raising), the
table is non-empty: zero surviving daily records raise the fatal
empty-result error instead. -/
theorem C9_nonempty (headers : List String) (rows : List RawRow) (cfg : StartConfig)
    (out : List OutRow) (h : processCsv headers rows cfg = Except.ok out) :
    out ≠ [] := by
  unfold processCsv at h
  cases hrc : resolveColumns (headers.map fun c => String.mk (pyStrip c.data)) with
  | error e =>
    rw [hrc] at h
    cases h
  | ok q =>
    rw [hrc] at h
    unfold processCsvRows at h
    by_cases hres : (processResults rows cfg).isEmpty
    · rw [if_pos hres] at h
      cases h
    · rw [if_neg hres] at h
      obtain rfl := Except.ok.inj h
      intro hnil
      have hpermS := List.perm_insertionSort outLe (processResults rows cfg)
      rw [hnil] at hpermS
      have hempty : processResults rows cfg = [] := hpermS.nil_eq.symm
      rw [hempty] at hres
      exact hres rfl

/-- C9, witness: a two-punch input survives processing and returns a
non-empty table. -/
theorem C9_witness :
    processCsv w9headers w9rows w9cfg = Except.ok w9out ∧ w9out ≠ [] := by
  have h : processCsv w9headers w9rows w9cfg = Except.ok w9out := rfl
  exact ⟨h, C9_nonempty w9headers w9rows w9cfg w9out h⟩

theorem processGroup_single_none (cfg : StartConfig) (n e : String) (row : RawRow)
    (hnone : rowDate row = none) : processGroup cfg n e [row] = [] := by
  unfold processGroup groupDates
  rw [show ([row] : List RawRow).filterMap rowDate = [] by simp [hnone]]
  rfl

theorem groupKeys_middle_mem {pre post : List RawRow} {row : RawRow}
    (hin : keyOf row ∈ (pre ++ post).map keyOf) :
    groupKeys (pre ++ row :: post) = groupKeys (pre ++ post) := by
  unfold groupKeys
  apply insertionSort_eq_of_perm
  apply (List.perm_ext_iff_of_nodup (List.nodup_dedup _) (List.nodup_dedup _)).mpr
  intro a
  rw [List.mem_dedup, List.mem_dedup, List.map_append, List.map_append, List.map_cons,
    List.mem_append, List.mem_append, List.mem_cons]
  rw [List.map_append, List.mem_append] at hin
  constructor
  · rintro (h | h | h)
    · exact Or.inl h
    · rw [h]
      exact hin
    · exact Or.inr h
  · rintro (h | h)
    · exact Or.inl h
    · exact Or.inr (Or.inr h)

theorem processResults_drop (pre post : List RawRow) (row : RawRow) (cfg : StartConfig)
    (hnone : rowDate row = none) :
    processResults (pre ++ row :: post) cfg = processResults (pre ++ post) cfg := by
  by_cases hin : keyOf row ∈ (pre ++ post).map keyOf
  · unfold processResults
    rw [groupKeys_middle_mem hin]
    refine flatMap_congr ?_
    intro k _
    by_cases hkr : keyOf row = k
    · rw [filter_middle_true (fun r => decide (keyOf r = k)) (decide_eq_true hkr),
        List.filter_append]
      exact processGroup_drop cfg k.1 k.2 _ _ row hnone
    · rw [filter_middle_false (fun r => decide (keyOf r = k)) (decide_eq_false hkr),
        List.filter_append]
  · -- the dropped row's key occurs nowhere else: its group is the singleton
    -- [row], which yields no date and no record
    have hnd2 : (List.dedup ((pre ++ post).map keyOf)).Nodup := List.nodup_dedup _
    have hndc : (keyOf row :: List.dedup ((pre ++ post).map keyOf)).Nodup := by
      rw [List.nodup_cons]
      exact ⟨fun hmem => hin (List.mem_dedup.mp hmem), hnd2⟩
    have hperm1 : (List.dedup ((pre ++ row :: post).map keyOf)).Perm
        (keyOf row :: List.dedup ((pre ++ post).map keyOf)) := by
      apply (List.perm_ext_iff_of_nodup (List.nodup_dedup _) hndc).mpr
      intro a
      rw [List.mem_dedup, List.mem_cons, List.mem_dedup, List.map_append, List.map_cons,
        List.mem_append, List.mem_cons, List.map_append, List.mem_append]
      constructor
      · rintro (h | h | h)
        · exact Or.inr (Or.inl h)
        · exact Or.inl h
        · exact Or.inr (Or.inr h)
      · rintro (h | h | h)
        · exact Or.inr (Or.inl h)
        · exact Or.inl h
        · exact Or.inr (Or.inr h)
    have hkmem : keyOf row ∈
        List.insertionSort keyLe (List.dedup ((pre ++ row :: post).map keyOf)) :=
      ((List.perm_insertionSort keyLe _).mem_iff).mpr
        (hperm1.mem_iff.mpr (List.mem_cons_self _ _))
    obtain ⟨A, B, hAB⟩ := List.append_of_mem hkmem
    have hsorted1 : List.Sorted keyLe (A ++ keyOf row :: B) := by
      rw [← hAB]
      exact List.sorted_insertionSort keyLe _
    have hnd1 : (A ++ keyOf row :: B).Nodup := by
      rw [← hAB]
      exact ((List.perm_insertionSort keyLe _).symm).nodup (List.nodup_dedup _)
    have hknotAB : keyOf row ∉ A ++ B :=
      (List.nodup_cons.mp (List.perm_middle.nodup hnd1)).1
    have hABeq : A ++ B =
        List.insertionSort keyLe (List.dedup ((pre ++ post).map keyOf)) := by
      have s1 : (keyOf row :: (A ++ B)).Perm (A ++ keyOf row :: B) :=
        List.perm_middle.symm
      have s2 : (A ++ keyOf row :: B).Perm
          (List.dedup ((pre ++ row :: post).map keyOf)) := by
        rw [← hAB]
        exact List.perm_insertionSort keyLe _
      have s4 : (List.dedup ((pre ++ post).map keyOf)).Perm
          (List.insertionSort keyLe (List.dedup ((pre ++ post).map keyOf))) :=
        (List.perm_insertionSort keyLe _).symm
      have hperm2 : (A ++ B).Perm
          (List.insertionSort keyLe (List.dedup ((pre ++ post).map keyOf))) :=
        List.Perm.cons_inv
          (((s1.trans s2).trans hperm1).trans (List.Perm.cons (keyOf row) s4))
      exact List.eq_of_perm_of_sorted hperm2
        (List.Pairwise.sublist
          ((List.sublist_cons_self (keyOf row) B).append_left A) hsorted1)
        (List.sorted_insertionSort keyLe _)
    have hinpre : keyOf row ∉ pre.map keyOf := by
      intro hx
      exact hin (by rw [List.map_append, List.mem_append]; exact Or.inl hx)
    have hinpost : keyOf row ∉ post.map keyOf := by
      intro hx
      exact hin (by rw [List.map_append, List.mem_append]; exact Or.inr hx)
    have hfilnil : ∀ (l : List RawRow), keyOf row ∉ l.map keyOf →
        l.filter (fun r => decide (keyOf r = keyOf row)) = [] := by
      intro l hl
      rw [List.filter_eq_nil_iff]
      intro r hr hpr
      exact hl ((of_decide_eq_true hpr) ▸ List.mem_map_of_mem keyOf hr)
    have hfk : (pre ++ row :: post).filter (fun r => decide (keyOf r = keyOf row)) =
        [row] := by
      rw [filter_middle_true (fun r => decide (keyOf r = keyOf row)) (decide_eq_true rfl),
        hfilnil pre hinpre, hfilnil post hinpost]
      rfl
    have hgroups : ∀ a : String × String, a ≠ keyOf row →
        (pre ++ row :: post).filter (fun r => decide (keyOf r = a)) =
        (pre ++ post).filter (fun r => decide (keyOf r = a)) := by
      intro a ha
      rw [filter_middle_false (fun r => decide (keyOf r = a))
        (decide_eq_false (fun hh => ha hh.symm)), List.filter_append]
    have hfA : ∀ a ∈ A,
        processGroup cfg a.1 a.2 ((pre ++ row :: post).filter (fun r => decide (keyOf r = a))) =
        processGroup cfg a.1 a.2 ((pre ++ post).filter (fun r => decide (keyOf r = a))) := by
      intro a haA
      rw [hgroups a (fun he => hknotAB (he ▸ List.mem_append.mpr (Or.inl haA)))]
    have hfB : ∀ a ∈ B,
        processGroup cfg a.1 a.2 ((pre ++ row :: post).filter (fun r => decide (keyOf r = a))) =
        processGroup cfg a.1 a.2 ((pre ++ post).filter (fun r => decide (keyOf r = a))) := by
      intro a haB
      rw [hgroups a (fun he => hknotAB (he ▸ List.mem_append.mpr (Or.inr haB)))]
    unfold processResults
    unfold groupKeys
    rw [hAB, ← hABeq]
    simp only [List.flatMap_append, List.flatMap_cons]
    rw [flatMap_congr hfA, flatMap_congr hfB, hfk,
      processGroup_single_none cfg (keyOf row).1 (keyOf row).2 row hnone]
    simp

/-- C10: a row whose raw datetime text contains no digits/digits/digits
substring contributes to no output: deleting it from the input leaves the
processed table unchanged, whatever the other rows and the configuration
(even when `_parse_datetime` accepts its text, as the witness shows). -/
theorem C10_no_slash_no_record (pre post : List RawRow) (row : RawRow) (cfg : StartConfig)
    (hnone : extractSlashDate row.dtText = none) :
    processCsvRows (pre ++ row :: post) cfg = processCsvRows (pre ++ post) cfg := by
  have hres : processResults (pre ++ row :: post) cfg = processResults (pre ++ post) cfg :=
    processResults_drop pre post row cfg hnone
  unfold processCsvRows
  rw [hres]

/-- C10, witness: a dash-format row parses successfully yet is dropped. -/
theorem C10_witness :
    extractSlashDate dashRow.dtText = none ∧
    (parseDatetime dashRow.dtText).isSome = true ∧
    processCsvRows ([] ++ dashRow :: []) [] = processCsvRows ([] ++ []) [] :=
  ⟨by decide, by decide, C10_no_slash_no_record [] [] dashRow [] (by decide)⟩

end AttendanceConv
